import Mathlib

/-!
Verification of the Schedule A1 contribution-record parsing engine
(src/app.py).  Strings are modelled as lists of characters; each Python
regular expression used by the source is embedded as a dedicated
matcher whose backtracking order follows the semantics of the re
module (leftmost start position wins; greedy pieces prefer longer
matches, lazy pieces prefer shorter ones).
-/

set_option maxRecDepth 10000
set_option maxHeartbeats 2000000

/-- Characters of a string literal, used to write concrete inputs. -/
def s2l (s : String) : List Char := s.data

/-- The sentinel value used by the source for unresolved fields. -/
def noData : List Char := s2l "No Data"

/-- Python regex class \s and the default whitespace set of str.strip
(ASCII part): space, tab, newline, carriage return, vertical tab, form feed. -/
def pySpace (c : Char) : Bool :=
  c = ' ' || c = '\t' || c = '\n' || c = '\r' || c = '\x0b' || c = '\x0c'

/-- Regex class [A-Z]. -/
def isUpperChar (c : Char) : Bool := 'A' ≤ c && c ≤ 'Z'

/-- Regex class [A-Za-z]. -/
def isAlphaChar (c : Char) : Bool :=
  ('A' ≤ c && c ≤ 'Z') || ('a' ≤ c && c ≤ 'z')

/-- Regex class [A-Za-z\s]. -/
def isAlphaSpace (c : Char) : Bool := isAlphaChar c || pySpace c

/-- Regex class [\d,]. -/
def isDigitComma (c : Char) : Bool := c.isDigit || c = ','

/-- Python str.strip(): remove leading and trailing whitespace. -/
def pyStrip (l : List Char) : List Char :=
  ((l.dropWhile pySpace).reverse.dropWhile pySpace).reverse

/-- Python str.lower() (the patterns involved are ASCII). -/
def pyLower (l : List Char) : List Char := l.map Char.toLower

/-- Whether pat is a prefix of l (as a Bool test). -/
def startsWithList : List Char → List Char → Bool
  | [], _ => true
  | _ :: _, [] => false
  | p :: ps, c :: cs => p = c && startsWithList ps cs

/-- Python substring containment: pat in l. -/
def containsSubstr (pat : List Char) : List Char → Bool
  | [] => pat.isEmpty
  | c :: t => startsWithList pat (c :: t) || containsSubstr pat t

theorem startsWithList_length {pat l : List Char}
    (h : startsWithList pat l = true) : pat.length ≤ l.length := by
  induction pat generalizing l with
  | nil => simp
  | cons p ps ih =>
    cases l with
    | nil => simp [startsWithList] at h
    | cons c cs =>
      simp only [startsWithList, Bool.and_eq_true] at h
      simpa [List.length] using Nat.succ_le_succ (ih h.2)

/-- Worker for Python str.replace(pat, "") with a nonempty pattern:
drop every non-overlapping occurrence, scanning left to right.  Each
step consumes at least one character, so the input length is enough
fuel. -/
def replaceAllGo (pat : List Char) : Nat → List Char → List Char
  | 0, l => l
  | fuel + 1, l =>
    if startsWithList pat l then replaceAllGo pat fuel (l.drop pat.length)
    else
      match l with
      | [] => []
      | c :: t => c :: replaceAllGo pat fuel t

/-- Python str.replace(pat, "").  With an empty pattern Python would
interleave empty replacements, which for the empty replacement
string leaves the input unchanged. -/
def replaceAll (pat : List Char) (l : List Char) : List Char :=
  if pat = [] then l else replaceAllGo pat l.length l

/-- Python text.split(sep) for a single-character separator: empty
pieces are kept, and the result is always nonempty. -/
def splitOnChar (sep : Char) : List Char → List (List Char)
  | [] => [[]]
  | c :: t =>
    if c = sep then [] :: splitOnChar sep t
    else
      match splitOnChar sep t with
      | h :: r => (c :: h) :: r
      | [] => [[c]]

/-- Worker for Python str.split() (no arguments): whitespace runs
separate the tokens and are discarded; fuel is the input length,
which bounds the number of tokens. -/
def pySplitWSGo : Nat → List Char → List (List Char)
  | 0, _ => []
  | fuel + 1, l =>
    match l.dropWhile pySpace with
    | [] => []
    | c :: t =>
      let tok := (c :: t).takeWhile (fun x => !pySpace x)
      tok :: pySplitWSGo fuel ((c :: t).drop tok.length)

/-- Python str.split() with no arguments. -/
def pySplitWS (l : List Char) : List (List Char) := pySplitWSGo l.length l

/-- Python str.split(maxsplit=1): some (tok, rest) exactly when the
result has two parts; rest keeps its trailing whitespace but not the
separating run. -/
def splitMax1 (l : List Char) : Option (List Char × List Char) :=
  let l1 := l.dropWhile pySpace
  let tok := l1.takeWhile (fun x => !pySpace x)
  let rest := (l1.drop tok.length).dropWhile pySpace
  if tok = [] then none
  else if rest = [] then none
  else some (tok, rest)

/-- Python " ".join. -/
def joinSpace : List (List Char) → List Char
  | [] => []
  | [x] => x
  | x :: y :: r => x ++ ' ' :: joinSpace (y :: r)

/-! ## The anchor regular expression

re.search of (\d{2}/\d{2}/\d{4})\s+(.+?)\s+\$?([\d,]+\.\d{2})
(src/app.py line 210).  The embedding enumerates the backtracking
choices in the order the re module explores them: start positions
left to right, each \s+ longest first, the lazy (.+?) shortest
first.  [\d,]+ needs no backtracking because shortening the greedy
run puts a [\d,] character where \. is required, and \$? needs none
because a dollar sign can never begin [\d,]+. -/

/-- Match \d{2}/\d{2}/\d{4} at the head, returning the matched text
and the remainder. -/
def matchDate : List Char → Option (List Char × List Char)
  | a :: b :: '/' :: c :: d :: '/' :: e :: f :: g :: h :: rest =>
    if a.isDigit && b.isDigit && c.isDigit && d.isDigit &&
       e.isDigit && f.isDigit && g.isDigit && h.isDigit then
      some ([a, b, '/', c, d, '/', e, f, g, h], rest)
    else none
  | _ => none

/-- Match [\d,]+\.\d{2} at the head, returning the matched text
(capture group 3 of the anchor pattern). -/
def matchAmountCore (l : List Char) : Option (List Char) :=
  let run := l.takeWhile isDigitComma
  if run = [] then none
  else
    match l.drop run.length with
    | '.' :: d1 :: d2 :: _ =>
      if d1.isDigit && d2.isDigit then some (run ++ ['.', d1, d2]) else none
    | _ => none

/-- Match \$?([\d,]+\.\d{2}) at the head: consume a leading dollar
sign when present (skipping it instead could never help, since a
dollar sign is outside [\d,]). -/
def matchAmountOpt : List Char → Option (List Char)
  | [] => matchAmountCore []
  | c :: t => if c = '$' then matchAmountCore t else matchAmountCore (c :: t)

/-- Match \s+(.+?)\s+\$?([\d,]+\.\d{2}) at the head (the anchor
pattern after its date group), returning groups 2 and 3.  The outer
loop takes the first \s+ from longest to shortest, the middle loop
grows the lazy group 2 one character at a time, and the inner loop
takes the second \s+ from longest to shortest. -/
def matchAfterDate (r : List Char) : Option (List Char × List Char) :=
  let m := (r.takeWhile pySpace).length
  (List.range m).findSome? fun k =>
    let r1 := r.drop (m - k)
    (List.range r1.length).findSome? fun j =>
      let g2 := r1.take (j + 1)
      if g2.all (fun c => c ≠ '\n') then
        let r2 := r1.drop (j + 1)
        let m2 := (r2.takeWhile pySpace).length
        (List.range m2).findSome? fun k2 =>
          (matchAmountOpt (r2.drop (m2 - k2))).map (fun g3 => (g2, g3))
      else none

/-- re.search of the anchor pattern: try every start position from
the left; the first position admitting a match wins. -/
def anchorSearch : List Char → Option (List Char × List Char × List Char)
  | [] => none
  | c :: t =>
    match matchDate (c :: t) with
    | some (d, r) =>
      match matchAfterDate r with
      | some (g2, g3) => some (d, g2, g3)
      | none => anchorSearch t
    | none => anchorSearch t

/-! ## re.sub of \(ID#:.*?\) (src/app.py line 219) -/

/-- Scan for the first ')' (the lazy .*? stops there); the dot cannot
cross a newline.  Returns the remainder after the ')'. -/
def findCloseParen : List Char → Option (List Char)
  | [] => none
  | c :: t =>
    if c = ')' then some t
    else if c = '\n' then none
    else findCloseParen t

theorem findCloseParen_length {l r : List Char}
    (h : findCloseParen l = some r) : r.length < l.length := by
  induction l with
  | nil => simp [findCloseParen] at h
  | cons c t ih =>
    by_cases hc : c = ')'
    · simp only [findCloseParen, hc, if_true, Option.some.injEq] at h
      subst h
      simp [List.length]
    · by_cases hn : c = '\n'
      · simp [findCloseParen, hc, hn] at h
      · simp only [findCloseParen, hc, hn, if_false] at h
        exact Nat.lt_trans (ih h) (by simp [List.length])

/-- Worker for re.sub of \(ID#:.*?\): each step consumes at least
one character, so the input length is enough fuel. -/
def stripIdGo : Nat → List Char → List Char
  | 0, l => l
  | fuel + 1, l =>
    match l with
    | '(' :: 'I' :: 'D' :: '#' :: ':' :: t =>
      (match findCloseParen t with
       | some r => stripIdGo fuel r
       | none => '(' :: stripIdGo fuel ('I' :: 'D' :: '#' :: ':' :: t))
    | c :: t => c :: stripIdGo fuel t
    | [] => []

/-- re.sub of \(ID#:.*?\) with the empty replacement: remove every
non-overlapping occurrence, scanning left to right; an opening
"(ID#:" with no later ')' matches nothing, and scanning resumes one
character further. -/
def stripId (l : List Char) : List Char := stripIdGo l.length l

/-! ## The helper regular expressions of the classifier and scanner -/

/-- re.search of \d{2}/\d{2}/\d{4}: some start position matches the
date shape. -/
def dateExists : List Char → Bool
  | [] => false
  | c :: t => (matchDate (c :: t)).isSome || dateExists t

/-- Head test used below: \d+\.\d{2} matches here with a one-digit
run (longer runs are found at the position of their last digit). -/
def amountHeadAt : List Char → Bool
  | d :: '.' :: a :: b :: _ => d.isDigit && a.isDigit && b.isDigit
  | _ => false

/-- re.search of \d+\.\d{2}: a match exists iff some position holds a
digit, then a dot, then two digits (the digit before the dot is the
last of the \d+ run). -/
def amountExists : List Char → Bool
  | [] => false
  | c :: t => amountHeadAt (c :: t) || amountExists t

/-- The continuation .*?\d+\.\d{2}: reach a position where the amount
shape starts without crossing a newline. -/
def amountAfterNoNL : List Char → Bool
  | [] => false
  | c :: t => amountHeadAt (c :: t) || (c ≠ '\n' && amountAfterNoNL t)

/-- Match \d{2}/\d{2}/\d{4}\s+.*?\d+\.\d{2} at the head: date, then
one to all of the following whitespace run, then the continuation. -/
def dateAmountShapeAt (l : List Char) : Bool :=
  match matchDate l with
  | some (_, rest) =>
    let m := (rest.takeWhile pySpace).length
    (List.range m).any fun k => amountAfterNoNL (rest.drop (k + 1))
  | none => false

/-- re.search of \d{2}/\d{2}/\d{4}\s+.*?\d+\.\d{2} (src/app.py lines
301 and 378), the next-anchor shape. -/
def dateAmountShape : List Char → Bool
  | [] => false
  | c :: t => dateAmountShapeAt (c :: t) || dateAmountShape t

/-- re.search of [A-Z]{2}\s+\d (src/app.py lines 250 and 324).  At a
given position the test is deterministic: two uppercase letters, the
whole whitespace run, then a digit (a shorter run would put a space
where \d is required). -/
def searchStateDigit : List Char → Bool
  | a :: b :: rest =>
    (isUpperChar a && isUpperChar b &&
      (let sp := rest.takeWhile pySpace
       !sp.isEmpty &&
         (match rest.drop sp.length with
          | d :: _ => d.isDigit
          | [] => false))) ||
    searchStateDigit (b :: rest)
  | _ => false

/-- re.match of ^\d+\s+[A-Za-z] (src/app.py lines 122 and 254): a
digit run, a whitespace run, then a letter; greedy runs need no
backtracking because the follow-up characters are outside the class. -/
def matchStreet (t : List Char) : Bool :=
  let ds := t.takeWhile Char.isDigit
  !ds.isEmpty &&
    (let r := t.drop ds.length
     let sp := r.takeWhile pySpace
     !sp.isEmpty &&
       (match r.drop sp.length with
        | c :: _ => isAlphaChar c
        | [] => false))

/-- re.match of ^[A-Za-z\s]+,\s*[A-Z]{2}$ (src/app.py lines 124 and
258).  The class run stops at the first comma; after it, the space
run, two uppercase letters and the end of the string ($ also matches
just before a final newline). -/
def matchCityST (t : List Char) : Bool :=
  let run := t.takeWhile isAlphaSpace
  !run.isEmpty &&
    (match t.drop run.length with
     | ',' :: rest =>
       (match rest.dropWhile pySpace with
        | a :: b :: rest2 =>
          isUpperChar a && isUpperChar b && (rest2 = [] || rest2 = ['\n'])
        | _ => false)
     | _ => false)

/-- re.match of ^[A-Z]{2}\s+\d{5} (src/app.py lines 126 and 262). -/
def matchSTZip (t : List Char) : Bool :=
  match t with
  | a :: b :: rest =>
    isUpperChar a && isUpperChar b &&
      (let sp := rest.takeWhile pySpace
       !sp.isEmpty &&
         (match rest.drop sp.length with
          | d1 :: d2 :: d3 :: d4 :: d5 :: _ =>
            d1.isDigit && d2.isDigit && d3.isDigit && d4.isDigit && d5.isDigit
          | _ => false))
  | _ => false

/-- re.match of ^\d+\.\d+$ (src/app.py line 113), page numbers such
as 1.0. -/
def matchPageNumPat (t : List Char) : Bool :=
  let ds := t.takeWhile Char.isDigit
  !ds.isEmpty &&
    (match t.drop ds.length with
     | '.' :: rest =>
       let ds2 := rest.takeWhile Char.isDigit
       !ds2.isEmpty &&
         (let tail := rest.drop ds2.length
          tail = [] || tail = ['\n'])
     | _ => false)

/-- The .*Rpt: continuation of the report stamp: reach "Rpt:" without
crossing a newline. -/
def hasRptAfter : List Char → Bool
  | [] => false
  | c :: t => startsWithList (s2l "Rpt:") (c :: t) || (c ≠ '\n' && hasRptAfter t)

/-- re.match of ^Sch:.*Rpt: (src/app.py line 115). -/
def matchSchRpt (t : List Char) : Bool :=
  startsWithList (s2l "Sch:") t && hasRptAfter (t.drop 4)

/-- re.match of ^\d+ of \d+$ (src/app.py line 117), such as 3 of 23. -/
def matchNofM (t : List Char) : Bool :=
  let ds := t.takeWhile Char.isDigit
  !ds.isEmpty &&
    (match t.drop ds.length with
     | ' ' :: 'o' :: 'f' :: ' ' :: rest =>
       let ds2 := rest.takeWhile Char.isDigit
       !ds2.isEmpty &&
         (let tail := rest.drop ds2.length
          tail = [] || tail = ['\n'])
     | _ => false)

/-! ## The address parsing regular expression

re.search of ([A-Za-z\s]+),\s*([A-Z]{2})\s*(\d{5}(?:-\d{4})?)
(src/app.py line 277).  At each start position the match is
deterministic: the greedy class run cannot contain a comma, so it
must end exactly at the first character outside the class, which has
to be a comma; the space runs are followed by characters outside \s. -/

/-- Match \d{5}(?:-\d{4})? at the head, returning the zip text. -/
def matchZip5 : List Char → Option (List Char)
  | d1 :: d2 :: d3 :: d4 :: d5 :: rest =>
    if d1.isDigit && d2.isDigit && d3.isDigit && d4.isDigit && d5.isDigit then
      match rest with
      | '-' :: e1 :: e2 :: e3 :: e4 :: _ =>
        if e1.isDigit && e2.isDigit && e3.isDigit && e4.isDigit then
          some ([d1, d2, d3, d4, d5] ++ ['-', e1, e2, e3, e4])
        else some [d1, d2, d3, d4, d5]
      | _ => some [d1, d2, d3, d4, d5]
    else none
  | _ => none

/-- Attempt the address pattern at this position, returning the three
capture groups (city, state, zip). -/
def addrMatchAt (l : List Char) : Option (List Char × List Char × List Char) :=
  let run := l.takeWhile isAlphaSpace
  if run = [] then none
  else
    match l.drop run.length with
    | c0 :: rest =>
      if c0 = ',' then
        (match rest.dropWhile pySpace with
         | a :: b :: rest2 =>
           if isUpperChar a && isUpperChar b then
             (matchZip5 (rest2.dropWhile pySpace)).map fun z => (run, [a, b], z)
           else none
         | _ => none)
      else none
    | [] => none

/-- re.search of the address pattern: leftmost start position wins. -/
def addrSearch : List Char → Option (List Char × List Char × List Char)
  | [] => none
  | c :: t =>
    match addrMatchAt (c :: t) with
    | some g => some g
    | none => addrSearch t

/-! ## Line classification (src/app.py lines 61-129) -/

/-- FOOTER_PATTERNS (src/app.py lines 62-68). -/
def FOOTER_PATTERNS : List (List Char) :=
  [s2l "provided by Texas Ethics Commission",
   s2l "www.ethics.state.tx.us",
   s2l "Version V1.1",
   s2l "Forms provided by",
   s2l "Texas Ethics Commission"]

/-- HEADER_PATTERNS (src/app.py lines 71-84). -/
def HEADER_PATTERNS : List (List Char) :=
  [s2l "Full name of contributor",
   s2l "out-of-state PAC",
   s2l "ID#:_________________________",
   s2l "Amount of Contribution ($)",
   s2l "Date",
   s2l "Contributor address",
   s2l "Principal occupation",
   s2l "Job title",
   s2l "See Instructions",
   s2l "Employer",
   s2l "SCHEDULE",
   s2l "MONETARY POLITICAL CONTRIBUTIONS"]

/-- is_footer_text (src/app.py lines 86-94): case-insensitive
containment of a footer pattern. -/
def is_footer_text (t : List Char) : Bool :=
  if t = [] then false
  else FOOTER_PATTERNS.any fun p => containsSubstr (pyLower p) (pyLower t)

/-- is_header_text (src/app.py lines 96-103): case-sensitive
containment of a header pattern. -/
def is_header_text (t : List Char) : Bool :=
  if t = [] then false
  else HEADER_PATTERNS.any fun p => containsSubstr p t

/-- should_skip_line (src/app.py lines 105-129). -/
def should_skip_line (t : List Char) : Bool :=
  if t = [] || pyStrip t = [] then true
  else if is_footer_text t then true
  else if is_header_text t then true
  else if matchPageNumPat t then true
  else if matchSchRpt t then true
  else if matchNofM t then true
  else if matchStreet t then true
  else if matchCityST t then true
  else if matchSTZip t then true
  else false

/-- The four address-fragment checks of the collection loop
(src/app.py lines 247-263). -/
def isAddressLine (t : List Char) : Bool :=
  (t.contains ',' && searchStateDigit t) ||
  matchStreet t ||
  matchCityST t ||
  matchSTZip t

/-! ## The contribution record and the per-anchor resolution steps -/

/-- One extracted contribution (src/app.py lines 360-371); every
field except the page number is a character string. -/
structure Record where
  date : List Char
  name : List Char
  city : List Char
  state : List Char
  zip : List Char
  amount : List Char
  occupation : List Char
  employer : List Char
  page : Nat

deriving instance DecidableEq, Repr for Record

/-- The line at an index (indices used by the loops are always in
range; the default is never reached). -/
def lineAt (lines : List (List Char)) (n : Nat) : List Char :=
  lines.getD n []

/-- The address collection loop (src/app.py lines 233-269) over the
remaining offsets of the window: examine lines i+1 .. i+5.  A blank
line stops collection only once fragments exist; an address fragment
is appended; any other line stops collection if fragments exist and
is otherwise skipped. -/
def collectAddressGo (lines : List (List Char)) (i : Nat) :
    List Nat → List (List Char) → List (List Char)
  | [], acc => acc
  | j :: js, acc =>
    if i + j ≥ lines.length then acc
    else
      let t := lineAt lines (i + j)
      if pyStrip t = [] then
        if acc ≠ [] then acc else collectAddressGo lines i js acc
      else if isAddressLine t then collectAddressGo lines i js (acc ++ [t])
      else if acc ≠ [] then acc
      else collectAddressGo lines i js acc

/-- The collected address block for the anchor at index i. -/
def collectAddressLines (lines : List (List Char)) (i : Nat) : List (List Char) :=
  collectAddressGo lines i [1, 2, 3, 4, 5] []

/-- Address parsing (src/app.py lines 271-291): join the block with
single spaces; try the city/state/zip pattern; otherwise split on the
first comma, the right part giving state and zip tokens when it has
at least two. -/
def parseAddress (addressLines : List (List Char)) :
    List Char × List Char × List Char :=
  match addressLines with
  | [] => (noData, noData, noData)
  | _ =>
    let address := pyStrip (joinSpace addressLines)
    match addrSearch address with
    | some (c, s, z) => (pyStrip c, pyStrip s, pyStrip z)
    | none =>
      match splitOnChar ',' address with
      | p0 :: p1 :: _ =>
        let city := pyStrip p0
        (match pySplitWS (pyStrip p1) with
         | s0 :: z0 :: _ => (city, s0, z0)
         | _ => (city, noData, noData))
      | _ => (noData, noData, noData)

/-- Scan an index window for the first line matching the next-anchor
shape (the loops of src/app.py lines 300-304 and 377-380). -/
def scanForShape (lines : List (List Char)) : List Nat → Option Nat
  | [] => none
  | j :: js =>
    if dateAmountShape (lineAt lines j) then some j
    else scanForShape lines js

/-- Gathering of potential occupation/employer lines (src/app.py
lines 293-327): the window starts after the address block, ends at
i+15 clamped by the line count and by the next contribution anchor
found within i+20, and drops noise lines, lines already consumed into
the address block, date-and-amount lines, and address-signature
lines. -/
def potentialDataLines (lines : List (List Char)) (i : Nat)
    (addressLines : List (List Char)) : List (List Char) :=
  let searchStart := i + addressLines.length + 1
  let searchEnd0 := min (i + 15) lines.length
  let searchEnd :=
    match scanForShape lines
        (List.range' searchStart (min (i + 20) lines.length - searchStart)) with
    | some j => min searchEnd0 j
    | none => searchEnd0
  (List.range' searchStart (searchEnd - searchStart)).filterMap fun j =>
    let t := lineAt lines j
    if should_skip_line t then none
    else if addressLines.contains t then none
    else if dateExists t && amountExists t then none
    else if t.contains ',' && searchStateDigit t then none
    else some t

/-- Assignment of occupation and employer from the potential lines
(src/app.py lines 329-342). -/
def assignOccEmp (potential : List (List Char)) : List Char × List Char :=
  match potential with
  | [] => (noData, noData)
  | [dl] =>
    if dl.contains ' ' then
      match splitMax1 dl with
      | some (a, b) => (a, b)
      | none => (noData, noData)
    else (dl, noData)
  | a :: b :: _ => (a, b)

/-- One step of the final cleanup (src/app.py lines 345-349): while
the field is nonempty, remove one header pattern and strip. -/
def cleanupStep (acc : List Char) (p : List Char) : List Char :=
  if acc = [] then acc else pyStrip (replaceAll p acc)

/-- Final cleanup of one field (src/app.py lines 344-358): strip each
header pattern out while the field is nonempty, then normalize
parenthesis debris and the empty string to the sentinel. -/
def cleanupField (f0 : List Char) : List Char :=
  let f1 := HEADER_PATTERNS.foldl cleanupStep f0
  let f2 := if f1 = s2l "()" ∨ f1 = s2l "(" ∨ f1 = s2l ")" ∨ f1 = noData
            then noData else f1
  if f2 = [] then noData else f2

/-- The record built at an anchor (src/app.py lines 212-371), given
the three capture groups of the anchor match at index i. -/
def buildRecord (lines : List (List Char)) (i : Nat) (pageNum : Nat)
    (d g2 g3 : List Char) : Record :=
  let name := pyStrip (stripId g2)
  let amount := '$' :: g3
  let addressLines := collectAddressLines lines i
  let csz := parseAddress addressLines
  let oe := assignOccEmp (potentialDataLines lines i addressLines)
  { date := d
    name := name
    city := csz.1
    state := csz.2.1
    zip := csz.2.2
    amount := amount
    occupation := cleanupField oe.1
    employer := cleanupField oe.2
    page := pageNum }

/-- Cursor advance after emitting a record (src/app.py lines
373-382): default skip max(1, addrCount+1), refined to j - i when a
next-anchor-shaped line is found at j scanning from i+skip up to
i+10 (clamped by the line count). -/
def nextCursor (lines : List (List Char)) (i c : Nat) : Nat :=
  let skip := max 1 (c + 1)
  match scanForShape lines
      (List.range' (i + skip) (min (i + 10) lines.length - (i + skip))) with
  | some j => i + (j - i)
  | none => i + skip

/-- Cursor advance using the address count computed at index i. -/
def nextCursorFrom (lines : List (List Char)) (i : Nat) : Nat :=
  nextCursor lines i (collectAddressLines lines i).length

theorem scanForShape_mem {lines : List (List Char)} {js : List Nat} {k : Nat}
    (h : scanForShape lines js = some k) : k ∈ js := by
  induction js with
  | nil => simp [scanForShape] at h
  | cons j js ih =>
    by_cases hs : dateAmountShape (lineAt lines j) = true
    · rw [scanForShape, if_pos hs] at h
      cases h
      exact List.mem_cons_self _ _
    · rw [scanForShape, if_neg hs] at h
      exact List.mem_cons_of_mem j (ih h)

/-- scanForShape is the first-match search over its window. -/
theorem scanForShape_eq_find (lines : List (List Char)) (js : List Nat) :
    scanForShape lines js =
      js.find? fun j => dateAmountShape (lineAt lines j) := by
  induction js with
  | nil => simp [scanForShape]
  | cons j js ih =>
    rw [scanForShape]
    cases hs : dateAmountShape (lineAt lines j) with
    | true => simp [List.find?, hs]
    | false => simp [List.find?, hs, ih]

theorem nextCursor_ge (lines : List (List Char)) (i c : Nat) :
    i + max 1 (c + 1) ≤ nextCursor lines i c := by
  simp only [nextCursor]
  split
  · rename_i j hs
    have hj := List.mem_range'_1.mp (scanForShape_mem hs)
    omega
  · omega

theorem nextCursor_gt (lines : List (List Char)) (i c : Nat) :
    i < nextCursor lines i c := by
  have h := nextCursor_ge lines i c
  omega

theorem nextCursorFrom_gt (lines : List (List Char)) (i : Nat) :
    i < nextCursorFrom lines i :=
  nextCursor_gt lines i _

/-- Fueled worker for the per-page while loop (src/app.py lines
203-384): at each cursor position, if the anchor pattern matches the
line, emit the record and advance by the computed skip; otherwise
advance by one.  The cursor strictly increases at every iteration,
so lines.length - i is enough fuel (fuel independence is proved
below). -/
def scanPageGoF (pageNum : Nat) (lines : List (List Char)) :
    Nat → Nat → List Record
  | 0, _ => []
  | fuel + 1, i =>
    if h : i < lines.length then
      match anchorSearch (lines.get ⟨i, h⟩) with
      | some (d, g2, g3) =>
        buildRecord lines i pageNum d g2 g3 ::
          scanPageGoF pageNum lines fuel (nextCursorFrom lines i)
      | none => scanPageGoF pageNum lines fuel (i + 1)
    else []

/-- Any two sufficient fuel values give the same scan: this is the
termination argument for the while loop. -/
theorem scanPageGoF_fuel (pageNum : Nat) (lines : List (List Char)) :
    ∀ fuel fuel2 i, lines.length - i ≤ fuel → lines.length - i ≤ fuel2 →
      scanPageGoF pageNum lines fuel i = scanPageGoF pageNum lines fuel2 i := by
  intro fuel
  induction fuel with
  | zero =>
    intro fuel2 i h1 h2
    cases fuel2 with
    | zero => rfl
    | succ f2 =>
      rw [scanPageGoF, scanPageGoF, dif_neg (by omega)]
  | succ f ih =>
    intro fuel2 i h1 h2
    cases fuel2 with
    | zero =>
      rw [scanPageGoF, scanPageGoF, dif_neg (by omega)]
    | succ f2 =>
      rw [scanPageGoF, scanPageGoF]
      by_cases h : i < lines.length
      · rw [dif_pos h, dif_pos h]
        have hnc := nextCursorFrom_gt lines i
        cases hm : anchorSearch (lines.get ⟨i, h⟩) with
        | some g =>
          obtain ⟨d, g2, g3⟩ := g
          simp only
          rw [ih f2 (nextCursorFrom lines i) (by omega) (by omega)]
        | none =>
          simp only
          rw [ih f2 (i + 1) (by omega) (by omega)]
      · rw [dif_neg h, dif_neg h]

/-- The while loop entered at cursor i (with the canonical fuel). -/
def scanPageGo (pageNum : Nat) (lines : List (List Char)) (i : Nat) :
    List Record :=
  scanPageGoF pageNum lines (lines.length - i) i

/-- The loop equation of the page scanner. -/
theorem scanPageGo_eq (pageNum : Nat) (lines : List (List Char)) (i : Nat) :
    scanPageGo pageNum lines i =
      if h : i < lines.length then
        match anchorSearch (lines.get ⟨i, h⟩) with
        | some (d, g2, g3) =>
          buildRecord lines i pageNum d g2 g3 ::
            scanPageGo pageNum lines (nextCursorFrom lines i)
        | none => scanPageGo pageNum lines (i + 1)
      else [] := by
  by_cases h : i < lines.length
  · rw [dif_pos h]
    have hstep : lines.length - i = (lines.length - i - 1) + 1 := by omega
    rw [scanPageGo, hstep, scanPageGoF, dif_pos h]
    have hnc := nextCursorFrom_gt lines i
    cases hm : anchorSearch (lines.get ⟨i, h⟩) with
    | some g =>
      obtain ⟨d, g2, g3⟩ := g
      simp only
      rw [scanPageGo,
        scanPageGoF_fuel pageNum lines (lines.length - i - 1)
          (lines.length - nextCursorFrom lines i) (nextCursorFrom lines i)
          (by omega) (by omega)]
    | none =>
      simp only
      rw [scanPageGo,
        scanPageGoF_fuel pageNum lines (lines.length - i - 1)
          (lines.length - (i + 1)) (i + 1) (by omega) (by omega)]
  · rw [dif_neg h, scanPageGo]
    cases hq : lines.length - i with
    | zero => rfl
    | succ n => omega

/-- Scan one page of already split lines. -/
def scanPage (pageNum : Nat) (lines : List (List Char)) : List Record :=
  scanPageGo pageNum lines 0

/-- Line splitting of the page text (src/app.py line 201): split on
newlines, strip each line, drop the blank ones. -/
def splitLines (text : List Char) : List (List Char) :=
  ((splitOnChar '\n' text).map pyStrip).filter fun l => !l.isEmpty

/-- The body of the page loop (src/app.py lines 192-384): an empty
text is skipped, and only pages containing a schedule marker are
scanned. -/
def processPageText (text : List Char) (pageNum : Nat) : List Record :=
  if text = [] then []
  else if containsSubstr (s2l "MONETARY POLITICAL CONTRIBUTIONS") text ||
          containsSubstr (s2l "Schedule A1") text then
    scanPage pageNum (splitLines text)
  else []

/-- The deduplication key (src/app.py line 394). -/
def dedupKey (r : Record) : List Char × List Char × List Char :=
  (r.date, r.name, r.amount)

/-- The deduplication loop (src/app.py lines 390-397): keep a record
when its key has not been seen, remembering the key. -/
def removeDupGo (seen : List (List Char × List Char × List Char)) :
    List Record → List Record
  | [] => []
  | c :: t =>
    if dedupKey c ∈ seen then removeDupGo seen t
    else c :: removeDupGo (dedupKey c :: seen) t

/-- Duplicate removal over the whole document. -/
def removeDuplicates (l : List Record) : List Record := removeDupGo [] l

/-- The whole extraction over the ordered page texts (src/app.py
lines 168-399): pages are numbered from 1, scanned in order, and the
aggregate record list is deduplicated. -/
def extract_schedule_a1 (pages : List (List Char)) : List Record :=
  removeDuplicates
    ((pages.enum.map fun p => processPageText p.2 (p.1 + 1)).flatten)

/-- Modelled from the spec: the Deduplicator contract in its own
words - retain only the first record for each distinct key,
preserving first-seen order (each kept record erases the later
records sharing its key). -/
def firstWins : List Record → List Record
  | [] => []
  | c :: t =>
    c :: firstWins (t.filter fun r => decide (dedupKey r ≠ dedupKey c))
termination_by l => l.length
decreasing_by
  have h2 := List.length_filter_le (fun r => decide (dedupKey r ≠ dedupKey c)) t
  simp only [List.length_cons]
  omega

/-! ## Page text acquisition (src/app.py lines 131-166)

get_text_from_page performs effects; it is embedded as a pure
function of its two effectful interactions.  native is the result of
page.extract_text(): none when the call raises, otherwise the text.
ocr combines rasterization and recognition: none when either raises,
some none when rasterization yields no images, some (some t) when
recognition returns t. -/

/-- The result of the OCR fallback path alone: empty on any failure. -/
def ocrFallbackResult : Option (Option (List Char)) → List Char
  | some (some t) => t
  | _ => []

/-- get_text_from_page: native text is kept only when nonempty with
more than 50 characters after stripping; otherwise the OCR fallback
runs and any failure there yields the empty string. -/
def get_text_from_page (native : Option (List Char))
    (ocr : Option (Option (List Char))) : List Char :=
  let text := match native with | some t => t | none => []
  if text ≠ [] ∧ 50 < (pyStrip text).length then text
  else ocrFallbackResult ocr

/-! ## Concrete inputs used by the claim theorems -/

/-- Scenario A of the specification. -/
def scenarioA : List (List Char) :=
  [s2l "01/15/2024 John Smith $500.00", s2l "123 Main St",
   s2l "Houston, TX 77002", s2l "Attorney SelfEmployed"]

/-- The record the engine actually produces in Scenario A. -/
def scenarioARecord : Record :=
  { date := s2l "01/15/2024", name := s2l "John Smith",
    city := s2l "Main St Houston", state := s2l "TX", zip := s2l "77002",
    amount := s2l "$500.00", occupation := s2l "Attorney",
    employer := s2l "SelfEmployed", page := 1 }

/-- A page whose anchor line has the whole name inside (ID#: ...). -/
def c3Page : List Char :=
  s2l "Schedule A1\n01/15/2024 (ID#: 12) 500.00"

/-- Lines where a non-address line precedes an address fragment. -/
def c5Lines : List (List Char) :=
  [s2l "01/01/2024 A 1.00", s2l "Engineer", s2l "123 Main St"]

/-- Lines with the only next-anchor-shaped line at index 10. -/
def c7Lines : List (List Char) :=
  [s2l "a", s2l "x", s2l "x", s2l "x", s2l "x", s2l "x", s2l "x", s2l "x",
   s2l "x", s2l "x", s2l "01/02/2024 B 2.00"]

/-- A page whose anchor amount group starts with a comma. -/
def c8Page : List Char := s2l "Schedule A1\n01/01/2024 X ,12.34"

/-- The amount shape the engine actually guarantees: a dollar sign,
then a nonempty run over [\d,], then a dot and two digits (the run
may begin with a comma). -/
def amountShape (l : List Char) : Bool :=
  match l with
  | c :: rest =>
    c = '$' &&
      (let run := rest.takeWhile isDigitComma
       !run.isEmpty &&
         (match rest.drop run.length with
          | ['.', a, b] => a.isDigit && b.isDigit
          | _ => false))
  | [] => false

/-- The record emitted from the C8 page. -/
def c8Record : Record :=
  { date := s2l "01/01/2024", name := s2l "X", city := noData,
    state := noData, zip := noData, amount := s2l "$,12.34",
    occupation := noData, employer := noData, page := 1 }

/-! ## C1 -/

/-- C1: when the anchor regex matches the line at the cursor, the
record the scanner emits there carries group 1 as its date, group 2
with the (ID#: ...) pattern removed and stripped as its name, and a
dollar sign prepended to group 3 as its amount. -/
theorem c1_anchor_groups (pageNum : Nat) (lines : List (List Char)) (i : Nat)
    (h : i < lines.length) (d g2 g3 : List Char)
    (hm : anchorSearch (lines.get ⟨i, h⟩) = some (d, g2, g3)) :
    ∃ r rest, scanPageGo pageNum lines i = r :: rest ∧
      r.date = d ∧ r.name = pyStrip (stripId g2) ∧ r.amount = '$' :: g3 := by
  refine ⟨buildRecord lines i pageNum d g2 g3,
    scanPageGo pageNum lines (nextCursorFrom lines i), ?_, rfl, rfl, rfl⟩
  rw [scanPageGo_eq, dif_pos h, hm]

/-- Witness for C1 at a concrete anchor line. -/
theorem c1_anchor_groups_witness :
    ∃ r rest,
      scanPageGo 1 [s2l "01/15/2024 John Smith $500.00"] 0 = r :: rest ∧
      r.date = s2l "01/15/2024" ∧
      r.name = pyStrip (stripId (s2l "John Smith")) ∧
      r.amount = '$' :: s2l "500.00" :=
  c1_anchor_groups 1 [s2l "01/15/2024 John Smith $500.00"] 0 (by decide)
    (s2l "01/15/2024") (s2l "John Smith") (s2l "500.00") (by decide)

/-! ## C4 -/

/-- C4 counterexample: in Scenario A the engine emits exactly one
record but its city is "Main St Houston" (the greedy class run of
the address regex starts right after the street number), not the
"Houston" the claim states. -/
theorem c4_counterexample :
    (scanPage 1 scenarioA).map Record.city = [s2l "Main St Houston"] ∧
    s2l "Main St Houston" ≠ s2l "Houston" := by
  constructor
  · decide
  · decide

/-- C4 amended: on Scenario A the engine produces exactly one record
with date 01/15/2024, name John Smith, amount $500.00, state TX, zip
77002, occupation Attorney, employer SelfEmployed, and city
"Main St Houston". -/
theorem c4_amended_scenario_a :
    scanPage 1 scenarioA = [scenarioARecord] := by
  decide

/-! ## C5 -/

/-- C5 counterexample: with a non-blank, non-fragment line directly
after the anchor and an address fragment after it, the collected
block still receives the later fragment, so collection did not stop
at the non-fragment line. -/
theorem c5_counterexample :
    pyStrip (s2l "Engineer") ≠ [] ∧
    isAddressLine (s2l "Engineer") = false ∧
    collectAddressLines c5Lines 0 = [s2l "123 Main St"] := by
  refine ⟨by decide, by decide, by decide⟩

/-- C5 amended: on meeting a non-blank line that is not an address
fragment, collection stops (without that line) only when the block
is already non-empty; with an empty block the line is skipped and
collection continues with the rest of the window. -/
theorem c5_amended_collection (lines : List (List Char)) (i j : Nat)
    (js : List Nat) (acc : List (List Char)) (hlen : i + j < lines.length)
    (hblank : pyStrip (lineAt lines (i + j)) ≠ [])
    (hfrag : isAddressLine (lineAt lines (i + j)) = false) :
    collectAddressGo lines i (j :: js) acc =
      if acc = [] then collectAddressGo lines i js acc else acc := by
  rw [collectAddressGo]
  rw [if_neg (by omega)]
  simp only
  rw [if_neg hblank, if_neg (by simp [hfrag])]
  by_cases ha : acc = []
  · rw [if_neg (by simp [ha]), if_pos ha]
  · rw [if_pos ha, if_neg ha]

/-- Witness for the amended C5. -/
theorem c5_amended_collection_witness :
    collectAddressGo c5Lines 0 (1 :: [2, 3, 4, 5]) [] =
      if ([] : List (List Char)) = []
      then collectAddressGo c5Lines 0 [2, 3, 4, 5] [] else [] :=
  c5_amended_collection c5Lines 0 1 [2, 3, 4, 5] [] (by decide) (by decide)
    (by decide)

/-! ## C7 -/

/-- C7 counterexample: with no address lines the new position is
anchorIndex+1; the line at index 10 matches the anchor shape and is
within ten lines of that new position, no earlier window line
matches, yet the cursor stays at 1 because the code scans only up to
anchorIndex+10 exclusive. -/
theorem c7_counterexample :
    nextCursor c7Lines 0 0 = 1 ∧
    dateAmountShape (lineAt c7Lines 10) = true ∧
    (List.range' 1 9).all (fun j => !dateAmountShape (lineAt c7Lines j)) = true := by
  refine ⟨by decide, by decide, by decide⟩

/-- C7 amended: the next cursor is the default anchorIndex +
max(1, addrCount+1) unless a line matching the anchor shape exists at
an index from that default position up to anchorIndex + 10 exclusive
(clamped to the line count), in which case the cursor is the first
such index. -/
theorem c7_amended_cursor (lines : List (List Char)) (i c : Nat) :
    nextCursor lines i c =
      (((List.range' (i + max 1 (c + 1))
            (min (i + 10) lines.length - (i + max 1 (c + 1)))).find?
          fun j => dateAmountShape (lineAt lines j)).getD
        (i + max 1 (c + 1))) := by
  simp only [nextCursor, scanForShape_eq_find]
  split
  · rename_i j hs
    have hj := List.mem_range'_1.mp (List.mem_of_find?_eq_some hs)
    rw [hs]
    simp only [Option.getD_some]
    omega
  · rename_i hs
    rw [hs]
    rfl

/-! ## C6 -/

/-- C6 counterexample: a single potential line containing a tab (a
whitespace character) but no space character is not split; the whole
line becomes the occupation and the employer stays at the sentinel,
although the claim requires a split on the first whitespace run. -/
theorem c6_counterexample :
    (s2l "Engineer\tAcme").any pySpace = true ∧
    assignOccEmp [s2l "Engineer\tAcme"] = (s2l "Engineer\tAcme", noData) ∧
    assignOccEmp [s2l "Engineer\tAcme"] ≠ (s2l "Engineer", s2l "Acme") := by
  refine ⟨by decide, by decide, by decide⟩

/-! ## C9 -/

/-- C9: the OCR fallback runs exactly when native extraction raises
or yields a trimmed result of at most 50 characters; any failure of
the fallback path (rasterization or recognition raising, or no
images) yields the empty string; and an empty page text contributes
no records. -/
theorem c9_ocr_fallback (native : Option (List Char))
    (ocr : Option (Option (List Char))) :
    (∀ t, native = some t → 50 < (pyStrip t).length →
      get_text_from_page native ocr = t) ∧
    (∀ t, native = some t → (pyStrip t).length ≤ 50 →
      get_text_from_page native ocr = ocrFallbackResult ocr) ∧
    (native = none → get_text_from_page native ocr = ocrFallbackResult ocr) ∧
    ocrFallbackResult none = [] ∧
    ocrFallbackResult (some none) = [] ∧
    (∀ pageNum, processPageText [] pageNum = []) := by
  refine ⟨?_, ?_, ?_, rfl, rfl, fun pageNum => rfl⟩
  · intro t ht hlen
    subst ht
    have htne : t ≠ [] := by
      intro he
      subst he
      simp [pyStrip] at hlen
    simp only [get_text_from_page]
    rw [if_pos ⟨htne, hlen⟩]
  · intro t ht hlen
    subst ht
    simp only [get_text_from_page]
    rw [if_neg]
    intro hcon
    have h2 := hcon.2
    omega
  · intro hn
    subst hn
    simp only [get_text_from_page]
    rw [if_neg]
    intro hcon
    exact hcon.1 rfl

/-- Witness for C9: a long native text is kept, a short one falls
back to the OCR result, a raising extraction with raising OCR gives
the empty string. -/
theorem c9_ocr_fallback_witness :
    get_text_from_page
        (some (s2l "MONETARY POLITICAL CONTRIBUTIONS Schedule A1 page text"))
        (some (some (s2l "ocr"))) =
      s2l "MONETARY POLITICAL CONTRIBUTIONS Schedule A1 page text" ∧
    get_text_from_page (some (s2l "short")) (some (some (s2l "ocr"))) =
      s2l "ocr" ∧
    get_text_from_page none none = [] ∧
    processPageText [] 1 = [] := by
  refine ⟨?_, ?_, ?_, ?_⟩
  · exact (c9_ocr_fallback
      (some (s2l "MONETARY POLITICAL CONTRIBUTIONS Schedule A1 page text"))
      (some (some (s2l "ocr")))).1 _ rfl (by decide)
  · exact (c9_ocr_fallback (some (s2l "short")) (some (some (s2l "ocr")))).2.1
      _ rfl (by decide)
  · exact (c9_ocr_fallback none none).2.2.1 rfl
  · exact (c9_ocr_fallback none none).2.2.2.2.2 1

/-! ## C10 -/

/-- C10: the scanning loop makes progress at every iteration: the
post-record cursor is at least anchorIndex + max(1, addrCount+1),
hence strictly larger than the anchor index (the refined index lies
in a window starting at the default skip); with no anchor match the
loop advances by exactly one.  The fuel independence theorem
scanPageGoF_fuel is the termination of the loop itself. -/
theorem c10_cursor_progress (lines : List (List Char)) (i c : Nat) :
    i + max 1 (c + 1) ≤ nextCursor lines i c ∧
    i < nextCursor lines i c ∧
    (∀ pageNum (h : i < lines.length),
      anchorSearch (lines.get ⟨i, h⟩) = none →
        scanPageGo pageNum lines i = scanPageGo pageNum lines (i + 1)) ∧
    (∀ pageNum (h : i < lines.length) d g2 g3,
      anchorSearch (lines.get ⟨i, h⟩) = some (d, g2, g3) →
        scanPageGo pageNum lines i =
          buildRecord lines i pageNum d g2 g3 ::
            scanPageGo pageNum lines (nextCursorFrom lines i)) := by
  refine ⟨nextCursor_ge lines i c, nextCursor_gt lines i c, ?_, ?_⟩
  · intro pageNum h hm
    rw [scanPageGo_eq, dif_pos h, hm]
  · intro pageNum h d g2 g3 hm
    rw [scanPageGo_eq, dif_pos h, hm]

/-- Witness for C10 on concrete pages: one non-anchor step and one
anchor step. -/
theorem c10_cursor_progress_witness :
    scanPageGo 1 [s2l "zz"] 0 = scanPageGo 1 [s2l "zz"] 1 ∧
    scanPageGo 1 [s2l "01/15/2024 Ann Lee 10.00"] 0 =
      buildRecord [s2l "01/15/2024 Ann Lee 10.00"] 0 1 (s2l "01/15/2024")
          (s2l "Ann Lee") (s2l "10.00") ::
        scanPageGo 1 [s2l "01/15/2024 Ann Lee 10.00"]
          (nextCursorFrom [s2l "01/15/2024 Ann Lee 10.00"] 0) := by
  constructor
  · exact (c10_cursor_progress [s2l "zz"] 0 0).2.2.1 1 (by decide) (by decide)
  · exact (c10_cursor_progress [s2l "01/15/2024 Ann Lee 10.00"] 0 0).2.2.2 1
      (by decide) _ _ _ (by decide)

/-! ## C2 -/

theorem removeDupGo_eq (l : List Record) :
    ∀ seen, removeDupGo seen l =
      firstWins (l.filter fun r => decide (dedupKey r ∉ seen)) := by
  induction l with
  | nil =>
    intro seen
    simp [removeDupGo, firstWins]
  | cons c t ih =>
    intro seen
    by_cases hc : dedupKey c ∈ seen
    · rw [removeDupGo, if_pos hc, ih seen]
      have hfilter : List.filter (fun r => decide (dedupKey r ∉ seen)) (c :: t)
          = List.filter (fun r => decide (dedupKey r ∉ seen)) t := by
        rw [List.filter_cons]
        simp [hc]
      rw [hfilter]
    · rw [removeDupGo, if_neg hc, ih (dedupKey c :: seen)]
      have hfilter : List.filter (fun r => decide (dedupKey r ∉ seen)) (c :: t)
          = c :: List.filter (fun r => decide (dedupKey r ∉ seen)) t := by
        rw [List.filter_cons]
        simp [hc]
      rw [hfilter, firstWins]
      congr 1
      congr 1
      rw [List.filter_filter]
      apply List.filter_congr
      intro a ha
      rw [← Bool.decide_and]
      apply decide_eq_decide.mpr
      simp [List.mem_cons, not_or]

theorem removeDupGo_nodup (l : List Record) :
    ∀ seen, ((removeDupGo seen l).map dedupKey).Nodup ∧
      ∀ r ∈ removeDupGo seen l, dedupKey r ∉ seen := by
  induction l with
  | nil =>
    intro seen
    exact ⟨List.nodup_nil, by simp [removeDupGo]⟩
  | cons c t ih =>
    intro seen
    by_cases hc : dedupKey c ∈ seen
    · rw [removeDupGo, if_pos hc]
      exact ih seen
    · rw [removeDupGo, if_neg hc]
      obtain ⟨ihn, ihm⟩ := ih (dedupKey c :: seen)
      refine ⟨?_, ?_⟩
      · simp only [List.map_cons, List.nodup_cons]
        refine ⟨?_, ihn⟩
        intro hmem
        obtain ⟨r, hr, hkey⟩ := List.mem_map.mp hmem
        exact (ihm r hr) (hkey ▸ List.mem_cons_self _ _)
      · intro r hr
        rcases List.mem_cons.mp hr with h1 | h2
        · rw [h1]
          exact hc
        · exact fun hmem => (ihm r h2) (List.mem_cons_of_mem _ hmem)

theorem removeDupGo_sublist (l : List Record) :
    ∀ seen, List.Sublist (removeDupGo seen l) l := by
  induction l with
  | nil =>
    intro seen
    simp [removeDupGo]
  | cons c t ih =>
    intro seen
    by_cases hc : dedupKey c ∈ seen
    · rw [removeDupGo, if_pos hc]
      exact (ih seen).cons c
    · rw [removeDupGo, if_neg hc]
      exact (ih _).cons₂ c

/-- C2: deduplication retains exactly the first record of each
distinct (date, name, amount) key - firstWins is the literal
one-record-per-key first-occurrence filter - the output is a sublist
of the input (first-seen order preserved, other fields untouched),
and the key triple is unique in the output. -/
theorem c2_dedup_firstWins (l : List Record) :
    removeDuplicates l = firstWins l ∧
    ((removeDuplicates l).map dedupKey).Nodup ∧
    List.Sublist (removeDuplicates l) l := by
  refine ⟨?_, (removeDupGo_nodup l []).1, removeDupGo_sublist l []⟩
  rw [removeDuplicates, removeDupGo_eq l []]
  have hfilter : (l.filter fun r => decide (dedupKey r ∉ ([] : List _))) = l :=
    List.filter_eq_self.mpr (by intro a ha; simp)
  rw [hfilter]

/-! ## C6 -/

theorem length_dropWhile_le_self (p : Char → Bool) (l : List Char) :
    (l.dropWhile p).length ≤ l.length :=
  (List.dropWhile_sublist p).length_le

theorem dropWhile_length_eq {p : Char → Bool} {l : List Char}
    (h : (List.dropWhile p l).length = l.length) : List.dropWhile p l = l := by
  cases l with
  | nil => rfl
  | cons c t =>
    rw [List.dropWhile_cons] at h ⊢
    by_cases hc : p c = true
    · rw [if_pos hc] at h ⊢
      have hle := length_dropWhile_le_self p t
      simp only [List.length_cons] at h
      omega
    · rw [if_neg hc] at h ⊢

/-- A string equal to its own strip neither starts nor ends with
whitespace: both dropWhile passes are the identity. -/
theorem pyStrip_self_parts {l : List Char} (h : pyStrip l = l) :
    l.dropWhile pySpace = l ∧ l.reverse.dropWhile pySpace = l.reverse := by
  have h1 := length_dropWhile_le_self pySpace l
  have h2 := length_dropWhile_le_self pySpace (l.dropWhile pySpace).reverse
  have h3 := congrArg List.length h
  rw [pyStrip] at h3
  simp only [List.length_reverse] at h2 h3
  have hA : (l.dropWhile pySpace).length = l.length := by omega
  have hAl : l.dropWhile pySpace = l := dropWhile_length_eq hA
  refine ⟨hAl, ?_⟩
  rw [pyStrip, hAl] at h
  have h4 := congrArg List.reverse h
  simpa using h4

/-- A stripped nonempty string containing a space splits into exactly
a first token and a nonempty remainder. -/
theorem splitMax1_parts {l : List Char} (hsp : l.contains ' ' = true)
    (hst : pyStrip l = l) (hne : l ≠ []) :
    splitMax1 l = some (l.takeWhile fun x => !pySpace x,
      (l.drop (l.takeWhile fun x => !pySpace x).length).dropWhile pySpace) := by
  obtain ⟨hA, hR⟩ := pyStrip_self_parts hst
  have htok : (l.takeWhile fun x => !pySpace x) ≠ [] := by
    cases hl : l with
    | nil => exact absurd hl hne
    | cons c t =>
      subst hl
      have hc : pySpace c = false := by
        cases hcc : pySpace c with
        | false => rfl
        | true =>
          rw [List.dropWhile_cons, if_pos hcc] at hA
          have hle := length_dropWhile_le_self pySpace t
          have hlen := congrArg List.length hA
          simp only [List.length_cons] at hlen
          omega
      rw [List.takeWhile_cons]
      simp [hc]
  have hsufeq := List.drop_left (l.takeWhile fun x => !pySpace x)
    (l.dropWhile fun x => !pySpace x)
  rw [List.takeWhile_append_dropWhile] at hsufeq
  have hrest : ((l.drop (l.takeWhile fun x => !pySpace x).length).dropWhile
      pySpace) ≠ [] := by
    rw [hsufeq]
    intro hempty
    have hall : ∀ x ∈ l.dropWhile fun x => !pySpace x, pySpace x :=
      List.dropWhile_eq_nil_iff.mp hempty
    have hmem : ' ' ∈ l := List.elem_iff.mp hsp
    have hmem2 : ' ' ∈ l.dropWhile fun x => !pySpace x := by
      have hsplit := List.takeWhile_append_dropWhile (fun x => !pySpace x) l
      rw [← hsplit] at hmem
      rcases List.mem_append.mp hmem with h1 | h2
      · have := List.mem_takeWhile_imp h1
        simp [pySpace] at this
      · exact h2
    have hsufne : (l.dropWhile fun x => !pySpace x) ≠ [] := by
      intro hnil
      rw [hnil] at hmem2
      exact absurd hmem2 (List.not_mem_nil ' ')
    have hrev : l.reverse = (l.dropWhile fun x => !pySpace x).reverse ++
        (l.takeWhile fun x => !pySpace x).reverse := by
      conv_lhs =>
        rw [← List.takeWhile_append_dropWhile (fun x => !pySpace x) l]
      rw [List.reverse_append]
    cases hsr : (l.dropWhile fun x => !pySpace x).reverse with
    | nil => exact hsufne (by simpa using congrArg List.reverse hsr)
    | cons y ys =>
      have hy : pySpace y := by
        apply hall
        have : y ∈ (l.dropWhile fun x => !pySpace x).reverse := by
          rw [hsr]
          exact List.mem_cons_self _ _
        simpa using this
      rw [hsr] at hrev
      rw [hrev, List.cons_append, List.dropWhile_cons, if_pos hy] at hR
      have hle := length_dropWhile_le_self pySpace
        (ys ++ (l.takeWhile fun x => !pySpace x).reverse)
      have hlen := congrArg List.length hR
      simp only [List.length_cons] at hlen
      omega
  rw [splitMax1]
  simp only [hA]
  rw [if_neg htok, if_neg hrest]

/-- C6 counterexample to the whitespace-split clause was given above;
the amended statement: a single potential line is split exactly when
it contains a space character U+0020 (not any whitespace); a
space-free line becomes the occupation whole, with the employer left
at the sentinel.  The line is as the engine sees it: stripped and
nonempty. -/
theorem c6_amended_single_line (l : List Char) :
    (l.contains ' ' = false → assignOccEmp [l] = (l, noData)) ∧
    (l.contains ' ' = true → pyStrip l = l → l ≠ [] →
      ∃ a b, splitMax1 l = some (a, b) ∧ assignOccEmp [l] = (a, b)) := by
  constructor
  · intro hsp
    rw [assignOccEmp, if_neg]
    intro hcon
    rw [hsp] at hcon
    exact Bool.false_ne_true hcon
  · intro hsp hst hne
    have hparts := splitMax1_parts hsp hst hne
    refine ⟨_, _, hparts, ?_⟩
    rw [assignOccEmp, if_pos hsp, hparts]

/-- Witness for the amended C6 on both branches. -/
theorem c6_amended_single_line_witness :
    assignOccEmp [s2l "Engineer"] = (s2l "Engineer", noData) ∧
    ∃ a b, splitMax1 (s2l "Teacher Acme") = some (a, b) ∧
      assignOccEmp [s2l "Teacher Acme"] = (a, b) := by
  constructor
  · exact (c6_amended_single_line (s2l "Engineer")).1 (by decide)
  · exact (c6_amended_single_line (s2l "Teacher Acme")).2 (by decide)
      (by decide) (by decide)

/-! ## C3 -/

/-- The head surviving dropWhile falsifies the predicate. -/
theorem dropWhile_head_false {p : Char → Bool} {l cs : List Char} {c : Char}
    (h : l.dropWhile p = c :: cs) : p c = false := by
  induction l with
  | nil => simp [List.dropWhile] at h
  | cons a t ih =>
    rw [List.dropWhile_cons] at h
    by_cases ha : p a = true
    · rw [if_pos ha] at h
      exact ih h
    · rw [if_neg ha] at h
      injection h with h1 h2
      subst h1
      exact Bool.eq_false_iff.mpr ha

/-- Every token produced by Python str.split() is nonempty. -/
theorem pySplitWSGo_ne_nil :
    ∀ fuel (l t : List Char), t ∈ pySplitWSGo fuel l → t ≠ [] := by
  intro fuel
  induction fuel with
  | zero =>
    intro l t ht
    simp [pySplitWSGo] at ht
  | succ f ih =>
    intro l t ht
    rw [pySplitWSGo] at ht
    cases hd : l.dropWhile pySpace with
    | nil =>
      rw [hd] at ht
      simp at ht
    | cons c cs =>
      rw [hd] at ht
      simp only at ht
      rcases List.mem_cons.mp ht with h1 | h2
      · have hc : pySpace c = false := dropWhile_head_false hd
        subst h1
        rw [List.takeWhile_cons]
        simp [hc]
      · exact ih _ _ h2

theorem pySplitWS_ne_nil {l t : List Char} (h : t ∈ pySplitWS l) : t ≠ [] :=
  pySplitWSGo_ne_nil l.length l t h

/-- An uppercase letter is not regex whitespace. -/
theorem upper_not_space {c : Char} (h : isUpperChar c = true) :
    pySpace c = false := by
  rw [isUpperChar, Bool.and_eq_true, decide_eq_true_eq, decide_eq_true_eq] at h
  rw [pySpace]
  simp only [Bool.or_eq_false_iff, decide_eq_false_iff_not]
  refine ⟨⟨⟨⟨⟨?_, ?_⟩, ?_⟩, ?_⟩, ?_⟩, ?_⟩
  all_goals intro he
  all_goals rw [he] at h
  all_goals exact absurd h.1 (by decide)

/-- A digit or a dash is not regex whitespace. -/
theorem zipchar_not_space {c : Char} (h : c.isDigit = true ∨ c = '-') :
    pySpace c = false := by
  rw [pySpace]
  simp only [Bool.or_eq_false_iff, decide_eq_false_iff_not]
  rcases h with hd | hdash
  · rw [Char.isDigit] at hd
    simp only [Bool.and_eq_true, decide_eq_true_eq] at hd
    refine ⟨⟨⟨⟨⟨?_, ?_⟩, ?_⟩, ?_⟩, ?_⟩, ?_⟩
    all_goals intro he
    all_goals rw [he] at hd
    all_goals exact absurd hd.1 (by decide)
  · subst hdash
    refine ⟨⟨⟨⟨⟨?_, ?_⟩, ?_⟩, ?_⟩, ?_⟩, ?_⟩
    all_goals decide

/-- Stripping a string of non-whitespace characters changes nothing. -/
theorem pyStrip_eq_self {l : List Char} (h : ∀ x ∈ l, pySpace x = false) :
    pyStrip l = l := by
  rw [pyStrip]
  have h1 : l.dropWhile pySpace = l := by
    cases l with
    | nil => rfl
    | cons c t =>
      rw [List.dropWhile_cons, if_neg (by simp [h c (List.mem_cons_self c t)])]
  rw [h1]
  have h2 : l.reverse.dropWhile pySpace = l.reverse := by
    cases hr : l.reverse with
    | nil => rfl
    | cons c t =>
      have hc : c ∈ l := by
        have hm : c ∈ l.reverse := by
          rw [hr]
          exact List.mem_cons_self c t
        simpa using hm
      rw [List.dropWhile_cons, if_neg (by simp [h c hc])]
  rw [h2, List.reverse_reverse]

/-- The zip capture group is nonempty and contains only digits and a
possible dash. -/
theorem matchZip5_shape {l z : List Char} (h : matchZip5 l = some z) :
    z ≠ [] ∧ ∀ x ∈ z, x.isDigit = true ∨ x = '-' := by
  unfold matchZip5 at h
  split at h
  · rename_i d1 d2 d3 d4 d5 rest
    split at h
    · rename_i hd
      simp only [Bool.and_eq_true] at hd
      split at h
      · rename_i e1 e2 e3 e4 rest2
        split at h
        · rename_i he
          simp only [Bool.and_eq_true] at he
          injection h with hz
          subst hz
          refine ⟨by simp, ?_⟩
          intro x hx
          simp only [List.mem_append, List.mem_cons, List.not_mem_nil,
            or_false] at hx
          rcases hx with hx | hx
          all_goals rcases hx with h1 | h1 | h1 | h1 | h1 <;> subst h1
          · exact Or.inl hd.1.1.1.1
          · exact Or.inl hd.1.1.1.2
          · exact Or.inl hd.1.1.2
          · exact Or.inl hd.1.2
          · exact Or.inl hd.2
          · exact Or.inr rfl
          · exact Or.inl he.1.1.1
          · exact Or.inl he.1.1.2
          · exact Or.inl he.1.2
          · exact Or.inl he.2
        · injection h with hz
          subst hz
          refine ⟨by simp, ?_⟩
          intro x hx
          simp only [List.mem_cons, List.not_mem_nil, or_false] at hx
          rcases hx with h1 | h1 | h1 | h1 | h1 <;> subst h1
          · exact Or.inl hd.1.1.1.1
          · exact Or.inl hd.1.1.1.2
          · exact Or.inl hd.1.1.2
          · exact Or.inl hd.1.2
          · exact Or.inl hd.2
      · injection h with hz
        subst hz
        refine ⟨by simp, ?_⟩
        intro x hx
        simp only [List.mem_cons, List.not_mem_nil, or_false] at hx
        rcases hx with h1 | h1 | h1 | h1 | h1 <;> subst h1
        · exact Or.inl hd.1.1.1.1
        · exact Or.inl hd.1.1.1.2
        · exact Or.inl hd.1.1.2
        · exact Or.inl hd.1.2
        · exact Or.inl hd.2
    · exact absurd h (by simp)
  · exact absurd h (by simp)

/-- Shapes of the state and zip groups of the address pattern. -/
theorem addrMatchAt_shape {l c s z : List Char}
    (h : addrMatchAt l = some (c, s, z)) :
    (∃ a b, s = [a, b] ∧ isUpperChar a = true ∧ isUpperChar b = true) ∧
    z ≠ [] ∧ ∀ x ∈ z, x.isDigit = true ∨ x = '-' := by
  simp only [addrMatchAt] at h
  by_cases hrun : List.takeWhile isAlphaSpace l = []
  · rw [if_pos hrun] at h
    cases h
  · rw [if_neg hrun] at h
    cases hdrop : List.drop (List.takeWhile isAlphaSpace l).length l with
    | nil =>
      rw [hdrop] at h
      cases h
    | cons c0 rest =>
      rw [hdrop] at h
      simp only [] at h
      by_cases hc0 : c0 = ','
      · rw [if_pos hc0] at h
        cases hdw : List.dropWhile pySpace rest with
        | nil =>
          rw [hdw] at h
          cases h
        | cons a1 rest1 =>
          cases rest1 with
          | nil =>
            rw [hdw] at h
            cases h
          | cons b1 rest2 =>
            rw [hdw] at h
            simp only [] at h
            by_cases hab : (isUpperChar a1 && isUpperChar b1) = true
            · rw [if_pos hab] at h
              simp only [Bool.and_eq_true] at hab
              obtain ⟨z0, hz0, heq⟩ := Option.map_eq_some'.mp h
              obtain ⟨hzshape, hzchars⟩ := matchZip5_shape hz0
              injection heq with he1 he2
              injection he2 with he2 he3
              subst he2
              subst he3
              exact ⟨⟨a1, b1, rfl, hab.1, hab.2⟩, hzshape, hzchars⟩
            · rw [if_neg hab] at h
              cases h
      · rw [if_neg hc0] at h
        cases h

theorem addrSearch_shape {l c s z : List Char}
    (h : addrSearch l = some (c, s, z)) :
    (∃ a b, s = [a, b] ∧ isUpperChar a = true ∧ isUpperChar b = true) ∧
    z ≠ [] ∧ ∀ x ∈ z, x.isDigit = true ∨ x = '-' := by
  induction l with
  | nil => simp [addrSearch] at h
  | cons a t ih =>
    rw [addrSearch] at h
    cases hm : addrMatchAt (a :: t) with
    | some g =>
      rw [hm] at h
      simp only [Option.some.injEq] at h
      subst h
      exact addrMatchAt_shape hm
    | none =>
      rw [hm] at h
      exact ih h

/-- The state and zip fields produced by address parsing are never
empty strings. -/
theorem parseAddress_state_zip (als : List (List Char)) :
    (parseAddress als).2.1 ≠ [] ∧ (parseAddress als).2.2 ≠ [] := by
  cases als with
  | nil =>
    constructor
    all_goals decide
  | cons a0 rest0 =>
    rw [parseAddress]
    case x_1 =>
      intro hcon
      cases hcon
    cases hsr : addrSearch (pyStrip (joinSpace (a0 :: rest0))) with
    | some g =>
      obtain ⟨cg, sg, zg⟩ := g
      obtain ⟨⟨a, b, hs, ha, hb⟩, hzne, hzchars⟩ := addrSearch_shape hsr
      constructor
      · show pyStrip sg ≠ []
        subst hs
        rw [pyStrip_eq_self]
        · simp
        · intro x hx
          simp only [List.mem_cons, List.not_mem_nil, or_false] at hx
          rcases hx with h1 | h1 <;> subst h1
          · exact upper_not_space ha
          · exact upper_not_space hb
      · show pyStrip zg ≠ []
        rw [pyStrip_eq_self (fun x hx => zipchar_not_space (hzchars x hx))]
        exact hzne
    | none =>
      simp only []
      cases hsp : splitOnChar ',' (pyStrip (joinSpace (a0 :: rest0))) with
      | nil =>
        constructor
        all_goals decide
      | cons p0 rest1 =>
        cases rest1 with
        | nil =>
          simp only []
          constructor
          all_goals decide
        | cons p1 rest2 =>
          simp only []
          cases hsz : pySplitWS (pyStrip p1) with
          | nil =>
            simp only []
            constructor
            all_goals decide
          | cons s0 rest3 =>
            cases rest3 with
            | nil =>
              simp only []
              constructor
              all_goals decide
            | cons z0 rest4 =>
              simp only []
              constructor
              · exact pySplitWS_ne_nil
                  (by rw [hsz]; exact List.mem_cons_self _ _)
              · exact pySplitWS_ne_nil (by
                  rw [hsz]
                  exact List.mem_cons_of_mem _ (List.mem_cons_self _ _))

/-- Field cleanup never returns the empty string. -/
theorem cleanupField_ne_nil (f0 : List Char) : cleanupField f0 ≠ [] := by
  simp only [cleanupField]
  split
  · decide
  · split
    · decide
    · rename_i hne2
      exact hne2

/-- Every record the page scanner emits is built at some anchor whose
line the anchor pattern matched. -/
theorem scanPageGo_mem (pageNum : Nat) (lines : List (List Char)) :
    ∀ fuel i r, lines.length - i ≤ fuel → r ∈ scanPageGo pageNum lines i →
      ∃ (i2 : Nat) (hlt : i2 < lines.length) (d g2 g3 : List Char),
        anchorSearch (lines.get ⟨i2, hlt⟩) = some (d, g2, g3) ∧
        r = buildRecord lines i2 pageNum d g2 g3 := by
  intro fuel
  induction fuel with
  | zero =>
    intro i r hf hr
    rw [scanPageGo_eq, dif_neg (by omega)] at hr
    exact absurd hr (List.not_mem_nil r)
  | succ f ih =>
    intro i r hf hr
    rw [scanPageGo_eq] at hr
    by_cases h : i < lines.length
    · rw [dif_pos h] at hr
      cases hm : anchorSearch (lines.get ⟨i, h⟩) with
      | some g =>
        obtain ⟨d, g2, g3⟩ := g
        rw [hm] at hr
        simp only [] at hr
        rcases List.mem_cons.mp hr with h1 | h2
        · exact ⟨i, h, d, g2, g3, hm, h1⟩
        · have hnc := nextCursorFrom_gt lines i
          exact ih (nextCursorFrom lines i) r (by omega) h2
      | none =>
        rw [hm] at hr
        exact ih (i + 1) r (by omega) hr
    · rw [dif_neg h] at hr
      exact absurd hr (List.not_mem_nil r)

/-- Every record of the final output is built at some anchor of some
page. -/
theorem extract_mem {pages : List (List Char)} {r : Record}
    (h : r ∈ extract_schedule_a1 pages) :
    ∃ (lines : List (List Char)) (i2 pageNum : Nat)
      (hlt : i2 < lines.length) (d g2 g3 : List Char),
      anchorSearch (lines.get ⟨i2, hlt⟩) = some (d, g2, g3) ∧
      r = buildRecord lines i2 pageNum d g2 g3 := by
  rw [extract_schedule_a1, removeDuplicates] at h
  have h2 := (removeDupGo_sublist _ []).subset h
  obtain ⟨lrec, hl, hrl⟩ := List.mem_flatten.mp h2
  obtain ⟨p, hp, hpe⟩ := List.mem_map.mp hl
  rw [← hpe] at hrl
  rw [processPageText] at hrl
  by_cases he : p.2 = []
  · rw [if_pos he] at hrl
    exact absurd hrl (List.not_mem_nil r)
  · rw [if_neg he] at hrl
    by_cases hrel :
        (containsSubstr (s2l "MONETARY POLITICAL CONTRIBUTIONS") p.2 ||
          containsSubstr (s2l "Schedule A1") p.2) = true
    · rw [if_pos hrel] at hrl
      rw [scanPage] at hrl
      obtain ⟨i2, hlt, d, g2, g3, hm, hb⟩ :=
        scanPageGo_mem (p.1 + 1) (splitLines p.2) (splitLines p.2).length 0
          r (by omega) hrl
      exact ⟨splitLines p.2, i2, p.1 + 1, hlt, d, g2, g3, hm, hb⟩
    · rw [if_neg hrel] at hrl
      exact absurd hrl (List.not_mem_nil r)

/-- C3 counterexample: a page whose anchor line carries the whole
name inside the (ID#: ...) decoration yields a record whose
contributor name is the empty string, never the sentinel. -/
theorem c3_counterexample :
    (extract_schedule_a1 [c3Page]).map Record.name = [[]] ∧
    ([] : List Char) ≠ noData := by
  constructor
  · decide
  · decide

/-- C3 amended: in every record of the final output, the amount,
state, zipCode, occupation and employer fields are never the empty
string (contributorName and city, by the counterexamples, can be);
unresolved fields hold the sentinel. -/
theorem c3_amended_fields (pages : List (List Char)) (r : Record)
    (h : r ∈ extract_schedule_a1 pages) :
    r.amount ≠ [] ∧ r.state ≠ [] ∧ r.zip ≠ [] ∧
    r.occupation ≠ [] ∧ r.employer ≠ [] := by
  obtain ⟨lines, i2, pageNum, hlt, d, g2, g3, hm, hb⟩ := extract_mem h
  subst hb
  simp only [buildRecord]
  exact ⟨by simp, (parseAddress_state_zip _).1, (parseAddress_state_zip _).2,
    cleanupField_ne_nil _, cleanupField_ne_nil _⟩

/-- Witness for the amended C3 at a concrete extraction. -/
theorem c3_amended_fields_witness :
    ({ date := s2l "01/15/2024", name := [], city := noData, state := noData,
       zip := noData, amount := s2l "$500.00", occupation := noData,
       employer := noData, page := 1 } : Record).amount ≠ [] ∧
    ({ date := s2l "01/15/2024", name := [], city := noData, state := noData,
       zip := noData, amount := s2l "$500.00", occupation := noData,
       employer := noData, page := 1 } : Record).state ≠ [] ∧
    ({ date := s2l "01/15/2024", name := [], city := noData, state := noData,
       zip := noData, amount := s2l "$500.00", occupation := noData,
       employer := noData, page := 1 } : Record).zip ≠ [] ∧
    ({ date := s2l "01/15/2024", name := [], city := noData, state := noData,
       zip := noData, amount := s2l "$500.00", occupation := noData,
       employer := noData, page := 1 } : Record).occupation ≠ [] ∧
    ({ date := s2l "01/15/2024", name := [], city := noData, state := noData,
       zip := noData, amount := s2l "$500.00", occupation := noData,
       employer := noData, page := 1 } : Record).employer ≠ [] :=
  c3_amended_fields [c3Page]
    { date := s2l "01/15/2024", name := [], city := noData, state := noData,
      zip := noData, amount := s2l "$500.00", occupation := noData,
      employer := noData, page := 1 } (by decide)

/-! ## C8 -/

theorem takeWhile_append_not {p : Char → Bool} {run rest : List Char}
    {y : Char} (hall : ∀ x ∈ run, p x = true) (hy : p y = false) :
    (run ++ y :: rest).takeWhile p = run := by
  induction run with
  | nil => simp [List.takeWhile_cons, hy]
  | cons a as ih =>
    rw [List.cons_append, List.takeWhile_cons,
      if_pos (hall a (List.mem_cons_self a as)),
      ih fun x hx => hall x (List.mem_cons_of_mem a hx)]

theorem matchAmountCore_shape {l g3 : List Char}
    (h : matchAmountCore l = some g3) : amountShape ('$' :: g3) = true := by
  simp only [matchAmountCore] at h
  split at h
  · cases h
  · rename_i hrun
    split at h
    · rename_i d1 d2 rest2
      split at h
      · rename_i hd
        simp only [Bool.and_eq_true] at hd
        injection h with hg
        subst hg
        simp only [amountShape]
        rw [takeWhile_append_not (fun x hx => List.mem_takeWhile_imp hx)
          (by decide)]
        rw [List.drop_left]
        simp [hrun, hd.1, hd.2]
      · cases h
    · cases h

theorem matchAmountOpt_shape {l g3 : List Char}
    (h : matchAmountOpt l = some g3) : amountShape ('$' :: g3) = true := by
  cases l with
  | nil =>
    rw [matchAmountOpt] at h
    exact matchAmountCore_shape h
  | cons c t =>
    rw [matchAmountOpt] at h
    by_cases hc : c = '$'
    · rw [if_pos hc] at h
      exact matchAmountCore_shape h
    · rw [if_neg hc] at h
      exact matchAmountCore_shape h

theorem matchAfterDate_g3 {r g2 g3 : List Char}
    (h : matchAfterDate r = some (g2, g3)) :
    ∃ s, matchAmountOpt s = some g3 := by
  simp only [matchAfterDate] at h
  obtain ⟨k, hkmem, hk⟩ := List.exists_of_findSome?_eq_some h
  try simp only [] at hk
  obtain ⟨j, hjmem, hj⟩ := List.exists_of_findSome?_eq_some hk
  try simp only [] at hj
  split at hj
  · obtain ⟨k2, hk2mem, hk2⟩ := List.exists_of_findSome?_eq_some hj
    try simp only [] at hk2
    obtain ⟨g3x, hg3, heq⟩ := Option.map_eq_some'.mp hk2
    injection heq with he1 he2
    subst he2
    exact ⟨_, hg3⟩
  · cases hj

theorem anchorSearch_g3 {l d g2 g3 : List Char}
    (h : anchorSearch l = some (d, g2, g3)) :
    ∃ s, matchAmountOpt s = some g3 := by
  induction l with
  | nil => simp [anchorSearch] at h
  | cons c t ih =>
    rw [anchorSearch] at h
    cases hd : matchDate (c :: t) with
    | none =>
      rw [hd] at h
      exact ih h
    | some pr =>
      obtain ⟨dd, rr⟩ := pr
      rw [hd] at h
      simp only [] at h
      cases had : matchAfterDate rr with
      | none =>
        rw [had] at h
        exact ih h
      | some pr2 =>
        obtain ⟨gg2, gg3⟩ := pr2
        rw [had] at h
        simp only [Option.some.injEq, Prod.mk.injEq] at h
        obtain ⟨h1, h2, h3⟩ := h
        subst h3
        exact matchAfterDate_g3 had

/-- C8 counterexample: an anchor line whose amount group begins with
a comma yields a record whose amount is "$,12.34"; the character
after the dollar sign is a comma, not a digit as the claim states. -/
theorem c8_counterexample :
    (extract_schedule_a1 [c8Page]).map Record.amount = [s2l "$,12.34"] ∧
    (s2l "$,12.34").get? 1 = some ',' ∧ ','.isDigit = false := by
  refine ⟨by decide, by decide, by decide⟩

/-- C8 amended: every emitted record's amount is the dollar sign
followed by a nonempty [\d,] run (possibly starting with a comma),
a dot, and two digits. -/
theorem c8_amended_amount (pages : List (List Char)) (r : Record)
    (h : r ∈ extract_schedule_a1 pages) : amountShape r.amount = true := by
  obtain ⟨lines, i2, pageNum, hlt, d, g2, g3, hm, hb⟩ := extract_mem h
  subst hb
  obtain ⟨s, hs⟩ := anchorSearch_g3 hm
  have hamt : (buildRecord lines i2 pageNum d g2 g3).amount = '$' :: g3 := by
    simp only [buildRecord]
  rw [hamt]
  exact matchAmountOpt_shape hs

/-- Witness for the amended C8 at a concrete extraction. -/
theorem c8_amended_amount_witness : amountShape c8Record.amount = true :=
  c8_amended_amount [c8Page] c8Record (by decide)
